import Mathlib

/-!
Shallow embedding of `layout/tree.go` from the wingo repository.

Modelling conventions:
* Go `float64` proportions are modelled as exact rationals (`ℚ`); the
  algorithms use only field arithmetic, which `ℚ` carries out exactly.
* Go pointers carry identity; nodes and split containers carry an explicit
  `nid : Nat` identity field, and `Client` interface values are modelled by
  `Nat` identifiers compared for equality (reference identity).
* A Go `panic` is modelled by returning `none`; a normal return is `some`.
* The external `Client` capability (`FrameTile`, `MoveResize`) is modelled
  by a trace of emitted calls.
-/

namespace Wingo

/-- `epsilon` from tree.go: the tolerance `0.0001` of `proportion.equal`. -/
def epsilon : ℚ := 1/10000

/-- `math.Abs`, specialised to the rational model of `float64`. -/
def ratAbs (q : ℚ) : ℚ := if q < 0 then -q else q

/-- `proportion.equal` from tree.go: `math.Abs(float64(p1-p2)) < epsilon`. -/
def pequal (p1 p2 : ℚ) : Bool := ratAbs (p1 - p2) < epsilon

/-- Modelled from the spec: `misc.Round` (package `misc`, not under src/)
rounds a real to the nearest integer, rounding half away from zero
(spec section 4.1: "source uses round-half-away-from-zero"). -/
def roundHalfAway (q : ℚ) : Int := if 0 ≤ q then ⌊q + 1/2⌋ else -⌊-q + 1/2⌋

/-- `proportion.portion` from tree.go: `misc.Round(float64(proportion(size) * p))`. -/
def portion (p : ℚ) (size : Int) : Int := roundHalfAway ((size : ℚ) * p)

/-- One call emitted to the external `Client` capability. -/
inductive ClientCall where
  | frameTile (c : Nat)
  | moveResize (c : Nat) (x y w h : Int)
  deriving DecidableEq

/-- The part of `xrect.Rect` the tree consumes: `X()`, `Y()`, `Width()`, `Height()`. -/
structure Rect where
  x : Int
  y : Int
  w : Int
  h : Int
  deriving DecidableEq

/-- Tree nodes of tree.go: `hsplit`, `vsplit` (each embedding `split`) and
`leaf`.  Every node records its proportion `prop`, its parent link
(`parent`, an optional node identity) and its own identity `nid`; a leaf
records the identity of its client. -/
inductive Node where
  | hsplit (prop : ℚ) (parent : Option Nat) (nid : Nat) (children : List Node)
  | vsplit (prop : ℚ) (parent : Option Nat) (nid : Nat) (children : List Node)
  | leaf (prop : ℚ) (parent : Option Nat) (nid : Nat) (client : Nat)

mutual

/-- Decidable equality of nodes (the derive handler does not support the
nested occurrence of `List Node`). -/
def Node.decEqNode : (a b : Node) → Decidable (a = b)
  | .hsplit p1 q1 i1 cs1, .hsplit p2 q2 i2 cs2 =>
    match decEq p1 p2, decEq q1 q2, decEq i1 i2, Node.decEqList cs1 cs2 with
    | isTrue h1, isTrue h2, isTrue h3, isTrue h4 => isTrue (by rw [h1, h2, h3, h4])
    | isFalse h1, _, _, _ => isFalse (by simp_all)
    | _, isFalse h2, _, _ => isFalse (by simp_all)
    | _, _, isFalse h3, _ => isFalse (by simp_all)
    | _, _, _, isFalse h4 => isFalse (by simp_all)
  | .vsplit p1 q1 i1 cs1, .vsplit p2 q2 i2 cs2 =>
    match decEq p1 p2, decEq q1 q2, decEq i1 i2, Node.decEqList cs1 cs2 with
    | isTrue h1, isTrue h2, isTrue h3, isTrue h4 => isTrue (by rw [h1, h2, h3, h4])
    | isFalse h1, _, _, _ => isFalse (by simp_all)
    | _, isFalse h2, _, _ => isFalse (by simp_all)
    | _, _, isFalse h3, _ => isFalse (by simp_all)
    | _, _, _, isFalse h4 => isFalse (by simp_all)
  | .leaf p1 q1 i1 c1, .leaf p2 q2 i2 c2 =>
    match decEq p1 p2, decEq q1 q2, decEq i1 i2, decEq c1 c2 with
    | isTrue h1, isTrue h2, isTrue h3, isTrue h4 => isTrue (by rw [h1, h2, h3, h4])
    | isFalse h1, _, _, _ => isFalse (by simp_all)
    | _, isFalse h2, _, _ => isFalse (by simp_all)
    | _, _, isFalse h3, _ => isFalse (by simp_all)
    | _, _, _, isFalse h4 => isFalse (by simp_all)
  | .hsplit _ _ _ _, .vsplit _ _ _ _ => isFalse (by simp)
  | .hsplit _ _ _ _, .leaf _ _ _ _ => isFalse (by simp)
  | .vsplit _ _ _ _, .hsplit _ _ _ _ => isFalse (by simp)
  | .vsplit _ _ _ _, .leaf _ _ _ _ => isFalse (by simp)
  | .leaf _ _ _ _, .hsplit _ _ _ _ => isFalse (by simp)
  | .leaf _ _ _ _, .vsplit _ _ _ _ => isFalse (by simp)

/-- Decidable equality of node lists. -/
def Node.decEqList : (as bs : List Node) → Decidable (as = bs)
  | [], [] => isTrue rfl
  | _ :: _, [] => isFalse (by simp)
  | [], _ :: _ => isFalse (by simp)
  | a :: as, b :: bs =>
    match Node.decEqNode a b, Node.decEqList as bs with
    | isTrue h1, isTrue h2 => isTrue (by rw [h1, h2])
    | isFalse h1, _ => isFalse (by simp_all)
    | _, isFalse h2 => isFalse (by simp_all)

end

instance : DecidableEq Node := Node.decEqNode

/-- `Proportion()` of the node interface. -/
def Node.prop : Node → ℚ
  | .hsplit p _ _ _ => p
  | .vsplit p _ _ _ => p
  | .leaf p _ _ _ => p

/-- `SetProportion(p)` of the node interface. -/
def Node.setProp : Node → ℚ → Node
  | .hsplit _ par i cs, q => .hsplit q par i cs
  | .vsplit _ par i cs, q => .vsplit q par i cs
  | .leaf _ par i c, q => .leaf q par i c

/-- `Parent()` of the node interface (the identity of the parent, if any). -/
def Node.parentLink : Node → Option Nat
  | .hsplit _ par _ _ => par
  | .vsplit _ par _ _ => par
  | .leaf _ par _ _ => par

/-- The node's own pointer identity. -/
def Node.nid : Node → Nat
  | .hsplit _ _ i _ => i
  | .vsplit _ _ i _ => i
  | .leaf _ _ i _ => i

/-- The shared `split` struct of tree.go: parent link, ordered child
sequence, own proportion — plus `nid`, modelling the container's pointer
identity (a Go `*split` is identified by its address). -/
structure Split where
  nid : Nat
  parent : Option Nat
  children : List Node
  prop : ℚ
  deriving DecidableEq

/-- The running sum `sum += child.Proportion()` of `split.checkPortions`. -/
def sumProps (cs : List Node) : ℚ := cs.foldl (fun a c => a + c.prop) 0

/-- `split.checkPortions` from tree.go, as the predicate "returns without
panicking": vacuously true with no children, otherwise the children's
proportions must sum to `1.0` up to `epsilon`. -/
def checkPortions (cs : List Node) : Bool :=
  if cs.length = 0 then true else pequal (sumProps cs) 1

/-- `newProp := fullPortion / proportion(len(s.children)+1)` in
`split.addNode`. -/
def newProportion (cs : List Node) : ℚ := 1 / ((cs.length : ℚ) + 1)

/-- The redistribution loop of `split.addNode`: if there are children,
each is shrunk by `chop := newProp / len(s.children)`. -/
def shrinkChildren (cs : List Node) : List Node :=
  if 0 < cs.length then
    cs.map (fun c => c.setProp (c.prop - newProportion cs / (cs.length : ℚ)))
  else cs

/-- The child sequence built by `split.addNode` just before
`checkPortions`: existing children shrunk, the new node carrying
`newProp`, appended (`last = true`) or prepended. -/
def addNodeChildren (cs : List Node) (n : Node) (last : Bool) : List Node :=
  if last then shrinkChildren cs ++ [n.setProp (newProportion cs)]
  else n.setProp (newProportion cs) :: shrinkChildren cs

/-- `split.addNode` from tree.go, acting on the container's child sequence;
`none` models the `checkPortions` panic.  Note the Go code never calls
`SetParent` here. -/
def addNode (cs : List Node) (n : Node) (last : Bool) : Option (List Node) :=
  if checkPortions (addNodeChildren cs n last) then some (addNodeChildren cs n last)
  else none

/-- The removal loop of `split.removeNode`: drop the (unique) child whose
pointer identity matches, returning it together with the remaining
children; `none` models the "node is not in the split" panic.  (Pointer
identity makes a node occur at most once in a child sequence.) -/
def removeChild : List Node → Nat → Option (Node × List Node)
  | [], _ => none
  | c :: cs, i =>
    if c.nid = i then some (c, cs)
    else (removeChild cs i).map (fun r => (r.1, c :: r.2))

/-- The redistribution loop of `split.removeNode`:
`leftovers := n.Proportion() / len(s.children)` added to every remaining
child. -/
def distributeLeftovers (n : Node) (rest : List Node) : List Node :=
  rest.map (fun c => c.setProp (c.prop + n.prop / (rest.length : ℚ)))

/-- `split.removeNode` from tree.go, acting on the child sequence: remove
the node (panicking if absent), then, if any children remain, distribute
the removed node's proportion evenly over them and run `checkPortions`.
The Go code reads `n.Proportion()` through the removed pointer, i.e. the
stored proportion of the removed child. -/
def removeNode (cs : List Node) (i : Nat) : Option (List Node) :=
  match removeChild cs i with
  | none => none
  | some (n, rest) =>
    if 0 < rest.length then
      if checkPortions (distributeLeftovers n rest) then
        some (distributeLeftovers n rest)
      else none
    else some rest

/-- `split.addNode` at the level of the `split` struct: only the `children`
field is touched. -/
def Split.addNode (s : Split) (n : Node) (last : Bool) : Option Split :=
  (Wingo.addNode s.children n last).map
    (fun cs => { s with children := cs })

/-- `split.removeNode` at the level of the `split` struct. -/
def Split.removeNode (s : Split) (i : Nat) : Option Split :=
  (Wingo.removeNode s.children i).map
    (fun cs => { s with children := cs })

mutual

/-- `MoveResize` of the node interface (tree.go): a leaf calls
`FrameTile` then `MoveResize` on its client; an hsplit hands each child its
`portion` of the width, advancing `x` by the allotted width; a vsplit does
the same on the vertical axis.  The Go methods never write any node field;
the model threads the node state explicitly and emits the client calls as
a trace. -/
def moveResize : Node → Int → Int → Int → Int → Node × List ClientCall
  | .leaf p par i cl, x, y, w, h =>
    (.leaf p par i cl, [.frameTile cl, .moveResize cl x y w h])
  | .hsplit p par i cs, x, y, w, h =>
    let r := hgo cs x y w h
    (.hsplit p par i r.1, r.2)
  | .vsplit p par i cs, x, y, w, h =>
    let r := vgo cs x y w h
    (.vsplit p par i r.1, r.2)

/-- The child loop of `hsplit.MoveResize`: `w := portion(width)`;
`child.MoveResize(nextx, y, w, height)`; `nextx += w`. -/
def hgo : List Node → Int → Int → Int → Int → List Node × List ClientCall
  | [], _, _, _, _ => ([], [])
  | c :: cs, nextx, y, width, height =>
    let w := portion c.prop width
    let r1 := moveResize c nextx y w height
    let r2 := hgo cs (nextx + w) y width height
    (r1.1 :: r2.1, r1.2 ++ r2.2)

/-- The child loop of `vsplit.MoveResize`: `h := portion(height)`;
`child.MoveResize(x, nexty, width, h)`; `nexty += h`. -/
def vgo : List Node → Int → Int → Int → Int → List Node × List ClientCall
  | [], _, _, _, _ => ([], [])
  | c :: cs, x, nexty, width, height =>
    let h := portion c.prop height
    let r1 := moveResize c x nexty width h
    let r2 := vgo cs x (nexty + h) width height
    (r1.1 :: r2.1, r1.2 ++ r2.2)

end

mutual

/-- `ValidDims` of the node interface (tree.go): a leaf checks
`w >= minw && h >= minh && w <= maxw && h <= maxh`; a split asks every
child recursively at its allotted extent along the split axis. -/
def validDims : Node → Int → Int → Int → Int → Int → Int → Bool
  | .leaf _ _ _ _, w, h, minw, minh, maxw, maxh =>
    decide (minw ≤ w) && decide (minh ≤ h) && decide (w ≤ maxw) && decide (h ≤ maxh)
  | .hsplit _ _ _ cs, w, h, minw, minh, maxw, maxh => validDimsH cs w h minw minh maxw maxh
  | .vsplit _ _ _ cs, w, h, minw, minh, maxw, maxh => validDimsV cs w h minw minh maxw maxh

/-- The child loop of `hsplit.ValidDims`: `childw := portion(w)`; fail as
soon as one child fails. -/
def validDimsH : List Node → Int → Int → Int → Int → Int → Int → Bool
  | [], _, _, _, _, _, _ => true
  | c :: cs, w, h, minw, minh, maxw, maxh =>
    validDims c (portion c.prop w) h minw minh maxw maxh
      && validDimsH cs w h minw minh maxw maxh

/-- The child loop of `vsplit.ValidDims`: `childh := portion(h)`. -/
def validDimsV : List Node → Int → Int → Int → Int → Int → Int → Bool
  | [], _, _, _, _, _, _ => true
  | c :: cs, w, h, minw, minh, maxw, maxh =>
    validDims c w (portion c.prop h) minw minh maxw maxh
      && validDimsV cs w h minw minh maxw maxh

end

mutual

/-- The leaves of a subtree in depth-first, child-sequence order: the
order in which `VisitLeafNodes` reaches them. -/
def leaves : Node → List Node
  | .leaf p par i cl => [.leaf p par i cl]
  | .hsplit _ _ _ cs => leavesL cs
  | .vsplit _ _ _ cs => leavesL cs

/-- Leaves of a child sequence, in order. -/
def leavesL : List Node → List Node
  | [] => []
  | c :: cs => leaves c ++ leavesL cs

end

/-- The client held by a leaf node (`0` for splits, which never occur in
`leaves` output). -/
def Node.clientOf : Node → Nat
  | .leaf _ _ _ cl => cl
  | .hsplit _ _ _ _ => 0
  | .vsplit _ _ _ _ => 0

mutual

/-- `VisitLeafNodes` (tree.go) applied to the closure of `tree.findLeaf`:
the closure's captured variable `lf` is threaded as an accumulator; on the
first leaf whose client is `c` it stores the leaf and returns `false`
("stop visiting"); a split stops early as soon as a child returns
`false`.  The result is `(lf, continue)`. -/
def visitN : Node → Nat → Option Node → Option Node × Bool
  | .leaf p par i cl, c, acc =>
    if cl = c then (some (.leaf p par i cl), false) else (acc, true)
  | .hsplit _ _ _ cs, c, acc => visitL cs c acc
  | .vsplit _ _ _ cs, c, acc => visitL cs c acc

/-- The child loop of `split.VisitLeafNodes`: visit children in order,
returning `false` (and skipping the rest) as soon as one visit returns
`false`. -/
def visitL : List Node → Nat → Option Node → Option Node × Bool
  | [], _, acc => (acc, true)
  | x :: xs, c, acc =>
    let r := visitN x c acc
    if r.2 then visitL xs c r.1 else (r.1, false)

end

/-- Number of leaves below a node. -/
def countLeaves (n : Node) : Nat := (leaves n).length

mutual

/-- Replace the client of the `i`-th leaf (depth-first order) of a node.
This models writing through the leaf pointer Go's `findLeaf` returned:
the pointed-to leaf is the `i`-th leaf of the tree for the appropriate
`i`, so assigning `lf.client = c` rewrites exactly that leaf in place. -/
def setLeafClient : Node → Nat → Nat → Node
  | .leaf p par j cl, i, c => if i = 0 then .leaf p par j c else .leaf p par j cl
  | .hsplit p par j cs, i, c => .hsplit p par j (setLeafClientL cs i c)
  | .vsplit p par j cs, i, c => .vsplit p par j (setLeafClientL cs i c)

/-- Replace the client of the `i`-th leaf under a child sequence. -/
def setLeafClientL : List Node → Nat → Nat → List Node
  | [], _, _ => []
  | x :: xs, i, c =>
    if i < countLeaves x then setLeafClient x i c :: xs
    else x :: setLeafClientL xs (i - countLeaves x) c

end

mutual

/-- Erase every leaf's client reference (to `0`), keeping shape, child
order, proportions and parent links.  Two trees agree under `eraseClients`
exactly when they differ at most in which clients their leaves hold. -/
def eraseClients : Node → Node
  | .leaf p par j _ => .leaf p par j 0
  | .hsplit p par j cs => .hsplit p par j (eraseClientsL cs)
  | .vsplit p par j cs => .vsplit p par j (eraseClientsL cs)

/-- `eraseClients` over a child sequence. -/
def eraseClientsL : List Node → List Node
  | [] => []
  | x :: xs => eraseClients x :: eraseClientsL xs

end

/-- The `tree` struct of tree.go: at most one top-level child. -/
structure Tree where
  child : Option Node

/-- `tree.findLeaf` (tree.go): run the visiting traversal from the root
with the captured `lf` starting at `nil`; return `lf`. -/
def Tree.findLeaf (t : Tree) (c : Nat) : Option Node :=
  match t.child with
  | none => none
  | some n => (visitN n c none).1

/-- The leaves of the whole tree in visiting order. -/
def Tree.leavesList (t : Tree) : List Node :=
  match t.child with
  | none => []
  | some n => leaves n

/-- The clients of the whole tree in leaf order. -/
def Tree.clientsList (t : Tree) : List Nat :=
  t.leavesList.map Node.clientOf

/-- `eraseClients` lifted to the tree root. -/
def Tree.eraseClients (t : Tree) : Tree :=
  ⟨t.child.map Wingo.eraseClients⟩

/-- `tree.switchClients` (tree.go): look up both clients' leaves; if either
is missing do nothing; otherwise swap the two leaves' client references in
place.  The Go swap writes through the two pointers `findLeaf` returned;
the model identifies each pointer with the depth-first index of the first
matching leaf (which is the leaf `findLeaf` returns) and rewrites those two
positions.  The leaf found for `cᵢ` holds client `cᵢ`, so the swap stores
`c2` at the first position and `c1` at the second. -/
def Tree.switchClients (t : Tree) (c1 c2 : Nat) : Tree :=
  match t.child with
  | none => t
  | some root =>
    match (leaves root).findIdx? (fun l => l.clientOf == c1),
          (leaves root).findIdx? (fun l => l.clientOf == c2) with
    | some i1, some i2 => ⟨some (setLeafClient (setLeafClient root i1 c2) i2 c1)⟩
    | some _, none => t
    | none, _ => t

/-- `tree.place` (tree.go): no child — do nothing; otherwise run
`ValidDims(w, h, 1, 1, w, h)` on the child and, only if it holds, run the
child's `MoveResize` at the target rectangle.  Result: the tree state after
the call and the trace of client calls it issued. -/
def Tree.place (t : Tree) (g : Rect) : Tree × List ClientCall :=
  match t.child with
  | none => (t, [])
  | some n =>
    if validDims n g.w g.h 1 1 g.w g.h then
      let r := moveResize n g.x g.y g.w g.h
      (⟨some r.1⟩, r.2)
    else (t, [])

/-- The effect of one client call on the clients' geometries (a map from
client identity to its current rectangle): `FrameTile` leaves every
geometry unchanged, `MoveResize` updates the addressed client's rectangle. -/
def applyCall (g : Nat → Rect) : ClientCall → Nat → Rect
  | .frameTile _ => g
  | .moveResize c x y w h => fun c' => if c' = c then ⟨x, y, w, h⟩ else g c'

/-- The effect of a trace of client calls on the clients' geometries. -/
def applyCalls (tr : List ClientCall) (g : Nat → Rect) : Nat → Rect :=
  tr.foldl applyCall g

/-- The widths of the `MoveResize` calls in a trace. -/
def traceWidths : List ClientCall → List Int
  | [] => []
  | .frameTile _ :: r => traceWidths r
  | .moveResize _ _ _ w _ :: r => w :: traceWidths r

/-- Whether a node is a leaf. -/
def Node.isLeaf : Node → Bool
  | .leaf _ _ _ _ => true
  | .hsplit _ _ _ _ => false
  | .vsplit _ _ _ _ => false

/-! ### Helper lemmas -/

theorem Node.prop_setProp (c : Node) (q : ℚ) : (c.setProp q).prop = q := by
  cases c <;> rfl

theorem Node.setProp_setProp (c : Node) (a b : ℚ) :
    (c.setProp a).setProp b = c.setProp b := by
  cases c <;> rfl

theorem Node.setProp_self (c : Node) : c.setProp c.prop = c := by
  cases c <;> rfl

theorem Node.nid_setProp (c : Node) (q : ℚ) : (c.setProp q).nid = c.nid := by
  cases c <;> rfl

theorem Node.parentLink_setProp (c : Node) (q : ℚ) :
    (c.setProp q).parentLink = c.parentLink := by
  cases c <;> rfl

theorem ratAbs_eq_abs (q : ℚ) : ratAbs q = |q| := by
  unfold ratAbs
  rcases lt_or_le q 0 with h | h
  · rw [if_pos h, abs_of_neg h]
  · rw [if_neg (not_lt.mpr h), abs_of_nonneg h]

theorem pequal_iff (p1 p2 : ℚ) : pequal p1 p2 = true ↔ |p1 - p2| < 1/10000 := by
  unfold pequal
  rw [ratAbs_eq_abs]
  simp [epsilon]

theorem sumProps_shift (cs : List Node) (a : ℚ) :
    cs.foldl (fun a c => a + c.prop) a = a + sumProps cs := by
  induction cs generalizing a with
  | nil => simp [sumProps]
  | cons c cs ih =>
    unfold sumProps
    simp only [List.foldl_cons]
    rw [ih, ih (0 + c.prop)]
    ring

theorem sumProps_cons (c : Node) (cs : List Node) :
    sumProps (c :: cs) = c.prop + sumProps cs := by
  show List.foldl (fun a c => a + c.prop) 0 (c :: cs) = _
  simp only [List.foldl_cons]
  rw [sumProps_shift]
  ring

theorem sumProps_append (cs ds : List Node) :
    sumProps (cs ++ ds) = sumProps cs + sumProps ds := by
  induction cs with
  | nil => simp [sumProps]
  | cons c cs ih => simp only [List.cons_append, sumProps_cons, ih]; ring

theorem sumProps_map_shift (cs : List Node) (d : ℚ) :
    sumProps (cs.map (fun c => c.setProp (c.prop + d)))
      = sumProps cs + cs.length * d := by
  induction cs with
  | nil => simp [sumProps]
  | cons c cs ih =>
    simp only [List.map_cons, sumProps_cons, Node.prop_setProp, List.length_cons, ih]
    push_cast
    ring

theorem checkPortions_sum (cs : List Node) (h : checkPortions cs = true)
    (hne : cs ≠ []) : |sumProps cs - 1| < 1/10000 := by
  unfold checkPortions at h
  rw [if_neg (by simpa using List.length_eq_zero.not.mpr hne)] at h
  exact (pequal_iff _ _).mp h

theorem addNodeChildren_ne_nil (cs : List Node) (n : Node) (last : Bool) :
    addNodeChildren cs n last ≠ [] := by
  unfold addNodeChildren
  cases last <;> simp

theorem addNode_some_inv (cs : List Node) (n : Node) (last : Bool) (cs' : List Node)
    (h : addNode cs n last = some cs') :
    checkPortions cs' = true ∧ cs' ≠ [] ∧ cs' = addNodeChildren cs n last := by
  unfold addNode at h
  split at h
  · obtain rfl : _ = cs' := Option.some.inj h
    exact ⟨by assumption, addNodeChildren_ne_nil cs n last, rfl⟩
  · exact absurd h (by simp)

theorem removeNode_some_inv (cs : List Node) (i : Nat) (cs' : List Node)
    (h : removeNode cs i = some cs') (hne : cs' ≠ []) :
    checkPortions cs' = true := by
  unfold removeNode at h
  split at h
  · exact absurd h (by simp)
  · rename_i n rest heq
    split at h
    · split at h
      · obtain rfl : _ = cs' := Option.some.inj h
        assumption
      · exact absurd h (by simp)
    · obtain rfl : rest = cs' := Option.some.inj h
      rename_i hlen
      exact absurd (List.length_eq_zero.mp (by omega)) hne

mutual

theorem moveResize_fst (n : Node) (x y w h : Int) : (moveResize n x y w h).1 = n := by
  cases n with
  | leaf p par i cl => rfl
  | hsplit p par i cs =>
    simp only [moveResize]
    exact congrArg (Node.hsplit p par i) (hgo_fst cs x y w h)
  | vsplit p par i cs =>
    simp only [moveResize]
    exact congrArg (Node.vsplit p par i) (vgo_fst cs x y w h)

theorem hgo_fst (cs : List Node) (x y w h : Int) : (hgo cs x y w h).1 = cs := by
  cases cs with
  | nil => rfl
  | cons c cs =>
    simp only [hgo]
    exact congrArg₂ List.cons
      (moveResize_fst c x y (portion c.prop w) h)
      (hgo_fst cs (x + portion c.prop w) y w h)

theorem vgo_fst (cs : List Node) (x y w h : Int) : (vgo cs x y w h).1 = cs := by
  cases cs with
  | nil => rfl
  | cons c cs =>
    simp only [vgo]
    exact congrArg₂ List.cons
      (moveResize_fst c x y w (portion c.prop h))
      (vgo_fst cs x (y + portion c.prop h) w h)

end

theorem sumProps_nil : sumProps ([] : List Node) = 0 := rfl

theorem removeChild_cons_self (x : Node) (cs : List Node) (i : Nat) (hx : x.nid = i) :
    removeChild (x :: cs) i = some (x, cs) := by
  unfold removeChild
  rw [if_pos hx]

theorem removeChild_append_last (cs : List Node) (x : Node) (i : Nat)
    (h : ∀ c ∈ cs, c.nid ≠ i) (hx : x.nid = i) :
    removeChild (cs ++ [x]) i = some (x, cs) := by
  induction cs with
  | nil => simpa using removeChild_cons_self x [] i hx
  | cons c cs ih =>
    simp only [List.cons_append]
    unfold removeChild
    rw [if_neg (h c (by simp))]
    rw [ih (fun d hd => h d (by simp [hd]))]
    rfl

theorem shrinkChildren_nid_mem (cs : List Node) (c : Node) (hc : c ∈ shrinkChildren cs) :
    c.nid ∈ cs.map Node.nid := by
  unfold shrinkChildren at hc
  by_cases h : 0 < cs.length
  · rw [if_pos h] at hc
    obtain ⟨d, hd, rfl⟩ := List.mem_map.mp hc
    rw [Node.nid_setProp]
    exact List.mem_map_of_mem _ hd
  · rw [if_neg h] at hc
    exact List.mem_map_of_mem _ hc

theorem sumProps_shrinkChildren (cs : List Node) (hne : cs ≠ []) :
    sumProps (shrinkChildren cs) = sumProps cs - newProportion cs := by
  have hlen : 0 < cs.length := List.length_pos.mpr hne
  have hq : (cs.length : ℚ) ≠ 0 := Nat.cast_ne_zero.mpr (Nat.pos_iff_ne_zero.mp hlen)
  unfold shrinkChildren
  rw [if_pos hlen]
  simp only [sub_eq_add_neg]
  rw [sumProps_map_shift]
  field_simp
  ring

theorem sumProps_addNodeChildren (cs : List Node) (n : Node) (last : Bool) (hne : cs ≠ []) :
    sumProps (addNodeChildren cs n last) = sumProps cs := by
  unfold addNodeChildren
  cases last
  · simp only [Bool.false_eq_true, if_false]
    rw [sumProps_cons, sumProps_shrinkChildren cs hne, Node.prop_setProp]
    ring
  · simp only [if_true]
    rw [sumProps_append, sumProps_shrinkChildren cs hne, sumProps_cons, sumProps_nil,
      Node.prop_setProp]
    ring

theorem shrinkChildren_length (cs : List Node) : (shrinkChildren cs).length = cs.length := by
  unfold shrinkChildren
  by_cases h : 0 < cs.length
  · rw [if_pos h, List.length_map]
  · rw [if_neg h]

theorem distribute_undoes_shrink (cs : List Node) (n' : Node)
    (hprop : n'.prop = newProportion cs) (hne : cs ≠ []) :
    distributeLeftovers n' (shrinkChildren cs) = cs := by
  have hlen : 0 < cs.length := List.length_pos.mpr hne
  unfold distributeLeftovers
  rw [shrinkChildren_length]
  unfold shrinkChildren
  rw [if_pos hlen, List.map_map]
  have hpt : ∀ c ∈ cs,
      ((fun c => c.setProp (c.prop + n'.prop / (cs.length : ℚ))) ∘
        (fun c => c.setProp (c.prop - newProportion cs / (cs.length : ℚ)))) c = c := by
    intro c _
    simp only [Function.comp_apply, Node.setProp_setProp, Node.prop_setProp, hprop]
    rw [show c.prop - newProportion cs / (cs.length : ℚ)
        + newProportion cs / (cs.length : ℚ) = c.prop from by ring]
    exact Node.setProp_self c
  rw [List.map_congr_left hpt]
  simp

theorem roundHalfAway_close (q : ℚ) : |(roundHalfAway q : ℚ) - q| ≤ 1/2 := by
  unfold roundHalfAway
  by_cases h : 0 ≤ q
  · rw [if_pos h, abs_le]
    have h1 := Int.sub_one_lt_floor (q + 1/2)
    have h2 := Int.floor_le (q + 1/2)
    constructor <;> linarith
  · rw [if_neg h, abs_le]
    have h1 := Int.sub_one_lt_floor (-q + 1/2)
    have h2 := Int.floor_le (-q + 1/2)
    constructor <;> push_cast <;> linarith

theorem traceWidths_append (a b : List ClientCall) :
    traceWidths (a ++ b) = traceWidths a ++ traceWidths b := by
  induction a with
  | nil => rfl
  | cons e a ih => cases e <;> simp [traceWidths, ih]

theorem traceWidths_hgo_leaves (cs : List Node) (x y W H : Int)
    (hcs : ∀ c ∈ cs, c.isLeaf = true) :
    traceWidths (hgo cs x y W H).2 = cs.map (fun c => portion c.prop W) := by
  induction cs generalizing x with
  | nil => rfl
  | cons c cs ih =>
    have hc : c.isLeaf = true := hcs c (by simp)
    cases c with
    | hsplit p par i cs' => simp [Node.isLeaf] at hc
    | vsplit p par i cs' => simp [Node.isLeaf] at hc
    | leaf p par i cl =>
      simp only [hgo, moveResize, traceWidths_append]
      rw [ih _ (fun d hd => hcs d (by simp [hd]))]
      rfl

mutual

theorem visitN_spec (n : Node) (c : Nat) (acc : Option Node) :
    visitN n c acc = match (leaves n).find? (fun l => l.clientOf == c) with
      | some l => (some l, false)
      | none => (acc, true) := by
  cases n with
  | leaf p par i cl =>
    by_cases h : cl = c
    · subst h
      simp [visitN, leaves, List.find?_cons, Node.clientOf]
    · simp [visitN, leaves, List.find?_cons, Node.clientOf, h]
  | hsplit p par i cs =>
    simp only [visitN, leaves]
    exact visitL_spec cs c acc
  | vsplit p par i cs =>
    simp only [visitN, leaves]
    exact visitL_spec cs c acc

theorem visitL_spec (cs : List Node) (c : Nat) (acc : Option Node) :
    visitL cs c acc = match (leavesL cs).find? (fun l => l.clientOf == c) with
      | some l => (some l, false)
      | none => (acc, true) := by
  cases cs with
  | nil => rfl
  | cons x xs =>
    rw [visitL]
    rw [visitN_spec x c acc]
    simp only [leavesL, List.find?_append]
    cases hfx : (leaves x).find? (fun l => l.clientOf == c) with
    | some l => simp
    | none =>
      simp only [Option.none_or]
      exact visitL_spec xs c acc

end

theorem find?_none_iff_findIdx?_none (l : List Node) (p : Node → Bool) :
    l.find? p = none ↔ l.findIdx? p = none := by
  induction l with
  | nil => simp
  | cons x xs ih =>
    rw [List.find?_cons, List.findIdx?_cons, List.findIdx?_succ]
    cases hx : p x
    · simp [ih]
    · simp

mutual

theorem clients_setLeafClient (n : Node) (i c : Nat) :
    (leaves (setLeafClient n i c)).map Node.clientOf
      = ((leaves n).map Node.clientOf).set i c := by
  cases n with
  | leaf p par j cl =>
    cases i with
    | zero => simp [setLeafClient, leaves, Node.clientOf]
    | succ k => simp [setLeafClient, leaves, Node.clientOf]
  | hsplit p par j cs =>
    simp only [setLeafClient, leaves]
    exact clients_setLeafClientL cs i c
  | vsplit p par j cs =>
    simp only [setLeafClient, leaves]
    exact clients_setLeafClientL cs i c

theorem clients_setLeafClientL (cs : List Node) (i c : Nat) :
    (leavesL (setLeafClientL cs i c)).map Node.clientOf
      = ((leavesL cs).map Node.clientOf).set i c := by
  cases cs with
  | nil => simp [setLeafClientL, leavesL]
  | cons x xs =>
    rw [setLeafClientL]
    by_cases h : i < countLeaves x
    · rw [if_pos h]
      simp only [leavesL, List.map_append]
      rw [clients_setLeafClient x i c]
      rw [List.set_append_left _ _ (by simpa [countLeaves] using h)]
    · rw [if_neg h]
      simp only [leavesL, List.map_append]
      rw [clients_setLeafClientL xs (i - countLeaves x) c]
      rw [List.set_append_right _ _ (by simpa [countLeaves] using h)]
      rw [show ((leaves x).map Node.clientOf).length = countLeaves x from by
        simp [countLeaves]]

end

mutual

theorem eraseClients_setLeafClient (n : Node) (i c : Nat) :
    eraseClients (setLeafClient n i c) = eraseClients n := by
  cases n with
  | leaf p par j cl =>
    cases i with
    | zero => simp [setLeafClient, eraseClients]
    | succ k => simp [setLeafClient, eraseClients]
  | hsplit p par j cs =>
    simp only [setLeafClient, eraseClients]
    rw [eraseClientsL_setLeafClientL cs i c]
  | vsplit p par j cs =>
    simp only [setLeafClient, eraseClients]
    rw [eraseClientsL_setLeafClientL cs i c]

theorem eraseClientsL_setLeafClientL (cs : List Node) (i c : Nat) :
    eraseClientsL (setLeafClientL cs i c) = eraseClientsL cs := by
  cases cs with
  | nil => rfl
  | cons x xs =>
    rw [setLeafClientL]
    by_cases h : i < countLeaves x
    · rw [if_pos h]
      simp only [eraseClientsL]
      rw [eraseClients_setLeafClient x i c]
    · rw [if_neg h]
      simp only [eraseClientsL]
      rw [eraseClientsL_setLeafClientL xs (i - countLeaves x) c]

end

/-- Reduction of `switchClients` on a rooted tree. -/
theorem switchClients_some (root : Node) (c1 c2 : Nat) :
    Tree.switchClients ⟨some root⟩ c1 c2 =
      match (leaves root).findIdx? (fun l => l.clientOf == c1),
            (leaves root).findIdx? (fun l => l.clientOf == c2) with
      | some i1, some i2 => ⟨some (setLeafClient (setLeafClient root i1 c2) i2 c1)⟩
      | some _, none => ⟨some root⟩
      | none, _ => ⟨some root⟩ := rfl

/-! ### Claim theorems -/

/-- C1 (amended): whenever `split.addNode` or `split.removeNode` returns
normally, the proportions of the container's direct children sum to `1.0`
within the tolerance `1e-4` — provided the container still has at least one
child.  (`addNode` always leaves at least one child; a `removeNode` that
empties the container skips `checkPortions` and returns normally with the
sum at `0`, which is why the original unconditional claim fails.) -/
theorem portions_sum_after_mutation (s : Split) (n : Node) (i : Nat) (last : Bool)
    (s' s'' : Split) :
    (s.addNode n last = some s' → |sumProps s'.children - 1| < 1/10000)
    ∧ (s.removeNode i = some s'' → s''.children ≠ [] →
        |sumProps s''.children - 1| < 1/10000) := by
  constructor
  · intro h
    unfold Split.addNode at h
    cases haddeq : addNode s.children n last with
    | none => rw [haddeq] at h; exact absurd h (by simp)
    | some cs' =>
      rw [haddeq] at h
      simp only [Option.map_some'] at h
      obtain rfl : _ = s' := Option.some.inj h
      obtain ⟨hcp, hne, _⟩ := addNode_some_inv _ _ _ _ haddeq
      exact checkPortions_sum _ hcp hne
  · intro h hne
    unfold Split.removeNode at h
    cases hremeq : removeNode s.children i with
    | none => rw [hremeq] at h; exact absurd h (by simp)
    | some cs' =>
      rw [hremeq] at h
      simp only [Option.map_some'] at h
      obtain rfl : _ = s'' := Option.some.inj h
      exact checkPortions_sum _
        (removeNode_some_inv _ _ _ hremeq (by simpa using hne)) (by simpa using hne)

/-- Witness for `portions_sum_after_mutation`: the first conjunct applied to
an insertion into an empty container. -/
theorem portions_sum_after_mutation_witness :
    |sumProps [Node.leaf 1 none 2 9] - 1| < 1/10000 :=
  (portions_sum_after_mutation ⟨0, none, [], 1⟩ (.leaf 0 none 2 9) 0 true
      ⟨0, none, [Node.leaf 1 none 2 9], 1⟩ ⟨0, none, [], 1⟩).1
    (by norm_num [Split.addNode, addNode, addNodeChildren, shrinkChildren, newProportion,
      checkPortions, pequal, ratAbs, epsilon, sumProps, Node.setProp, Node.prop])

/-- Counterexample to C1 as stated: removing the only child of a container
returns normally, yet the children's proportions then sum to `0`, not to
`1.0` within `1e-4`. -/
theorem portions_sum_empty_cex :
    Split.removeNode ⟨5, none, [Node.leaf 1 none 0 3], 1⟩ 0 = some ⟨5, none, [], 1⟩
    ∧ ¬ (|sumProps ([] : List Node) - 1| < 1/10000) := by
  constructor
  · norm_num [Split.removeNode, removeNode, removeChild, Node.nid]
  · norm_num [sumProps]

/-- C2 (amended): `addNode` stores the inserted node with only its
proportion changed — its parent link afterwards is exactly what it was
before the call.  Re-parenting is left to the caller (`newLeaf`/`newHSplit`
take the parent at construction); `addNode` itself never calls `SetParent`. -/
theorem addNode_keeps_parent (s : Split) (n : Node) (last : Bool) (s' : Split)
    (h : s.addNode n last = some s') :
    (if last then s'.children.getLast? else s'.children.head?)
        = some (n.setProp (newProportion s.children))
    ∧ (n.setProp (newProportion s.children)).parentLink = n.parentLink := by
  refine ⟨?_, Node.parentLink_setProp n _⟩
  unfold Split.addNode at h
  cases haddeq : addNode s.children n last with
  | none => rw [haddeq] at h; exact absurd h (by simp)
  | some cs' =>
    rw [haddeq] at h
    simp only [Option.map_some'] at h
    obtain rfl : _ = s' := Option.some.inj h
    obtain ⟨_, _, hcs⟩ := addNode_some_inv _ _ _ _ haddeq
    subst hcs
    unfold addNodeChildren
    cases last
    · simp
    · simp

/-- Witness for `addNode_keeps_parent` at a concrete insertion. -/
theorem addNode_keeps_parent_witness :
    (if true then ([Node.leaf 1 none 3 10] : List Node).getLast?
      else ([Node.leaf 1 none 3 10] : List Node).head?)
        = some ((Node.leaf 0 none 3 10).setProp (newProportion ([] : List Node)))
    ∧ ((Node.leaf 0 none 3 10).setProp (newProportion ([] : List Node))).parentLink
        = (Node.leaf 0 none 3 10).parentLink :=
  addNode_keeps_parent ⟨7, none, [], 1⟩ (.leaf 0 none 3 10) true
    ⟨7, none, [Node.leaf 1 none 3 10], 1⟩
    (by norm_num [Split.addNode, addNode, addNodeChildren, shrinkChildren, newProportion,
      checkPortions, pequal, ratAbs, epsilon, sumProps, Node.setProp, Node.prop])

/-- Counterexample to C2 as stated: a node with parent link `none` added to
the container with identity `7` via `addNode` still has parent link `none`
afterwards — `addNode` performs no re-parenting. -/
theorem addNode_no_reparent_cex :
    Split.addNode ⟨7, none, [], 1⟩ (.leaf 0 none 3 10) true
      = some ⟨7, none, [Node.leaf 1 none 3 10], 1⟩
    ∧ (Node.leaf 1 none 3 10).parentLink ≠ some 7 := by
  constructor
  · norm_num [Split.addNode, addNode, addNodeChildren, shrinkChildren, newProportion,
      checkPortions, pequal, ratAbs, epsilon, sumProps, Node.setProp, Node.prop]
  · simp [Node.parentLink]

/-- C3: `tree.place` is a no-op on a childless tree; otherwise it runs the
root's `ValidDims` with min bounds `(1,1)` and max bounds `(w,h)` of the
target, and if that check fails it returns with the tree untouched, no
client call issued, and every client's geometry unchanged. -/
theorem place_rejects_invalid (t : Tree) (g : Rect) (geo : Nat → Rect) :
    (t.child = none → t.place g = (t, []))
    ∧ (∀ n, t.child = some n → validDims n g.w g.h 1 1 g.w g.h = false →
        t.place g = (t, []) ∧ applyCalls (t.place g).2 geo = geo) := by
  obtain ⟨child⟩ := t
  constructor
  · rintro rfl
    rfl
  · rintro n rfl hval
    have hplace : Tree.place ⟨some n⟩ g = (⟨some n⟩, []) := by
      unfold Tree.place
      simp only [hval, Bool.false_eq_true, if_false]
    exact ⟨hplace, by rw [hplace]; rfl⟩

/-- Witness for `place_rejects_invalid`: a single leaf rejected because the
target rectangle has width `0 < 1`. -/
theorem place_rejects_invalid_witness :
    Tree.place ⟨some (.leaf 1 none 0 7)⟩ ⟨0, 0, 0, 5⟩ = (⟨some (.leaf 1 none 0 7)⟩, [])
    ∧ applyCalls (Tree.place ⟨some (.leaf 1 none 0 7)⟩ ⟨0, 0, 0, 5⟩).2
        (fun _ => ⟨0, 0, 0, 0⟩) = (fun _ => ⟨0, 0, 0, 0⟩) :=
  (place_rejects_invalid ⟨some (.leaf 1 none 0 7)⟩ ⟨0, 0, 0, 5⟩ (fun _ => ⟨0, 0, 0, 0⟩)).2
    (.leaf 1 none 0 7) rfl (by decide)

/-- C4: on a split container whose children's proportions sum to 1 within
tolerance, inserting a fresh node (identity not among the children) via
`addNode` and then immediately removing that same node via `removeNode`
restores the container exactly — in particular every remaining sibling's
proportion equals its pre-insertion value (exactly, hence within floating
tolerance). -/
theorem addNode_removeNode_roundtrip (s : Split) (n : Node) (last : Bool)
    (hsum : pequal (sumProps s.children) 1 = true)
    (hid : n.nid ∉ s.children.map Node.nid) :
    (s.addNode n last).bind (fun s' => s'.removeNode n.nid) = some s := by
  have hne : s.children ≠ [] := by
    intro h
    rw [h] at hsum
    norm_num [sumProps_nil, pequal, ratAbs, epsilon] at hsum
  have hlen : 0 < s.children.length := List.length_pos.mpr hne
  have hgate : checkPortions (addNodeChildren s.children n last) = true := by
    unfold checkPortions
    rw [if_neg (by simpa using addNodeChildren_ne_nil s.children n last)]
    rw [sumProps_addNodeChildren s.children n last hne]
    exact hsum
  have hadd : s.addNode n last
      = some ⟨s.nid, s.parent, addNodeChildren s.children n last, s.prop⟩ := by
    unfold Split.addNode addNode
    rw [if_pos hgate]
    rfl
  have hrc : removeChild (addNodeChildren s.children n last) n.nid
      = some (n.setProp (newProportion s.children), shrinkChildren s.children) := by
    have hmem : ∀ c ∈ shrinkChildren s.children, c.nid ≠ n.nid := by
      intro c hc heq
      exact hid (heq ▸ shrinkChildren_nid_mem s.children c hc)
    unfold addNodeChildren
    cases last
    · simp only [Bool.false_eq_true, if_false]
      exact removeChild_cons_self _ _ _ (Node.nid_setProp n _)
    · simp only [if_true]
      exact removeChild_append_last _ _ _ hmem (Node.nid_setProp n _)
  have hrem : removeNode (addNodeChildren s.children n last) n.nid = some s.children := by
    unfold removeNode
    rw [hrc]
    simp only
    rw [if_pos (by rw [shrinkChildren_length]; exact hlen)]
    rw [distribute_undoes_shrink s.children _ (Node.prop_setProp n _) hne]
    have hcp : checkPortions s.children = true := by
      unfold checkPortions
      rw [if_neg (by simpa using hne)]
      exact hsum
    rw [if_pos hcp]
  rw [hadd]
  show Split.removeNode _ n.nid = some s
  unfold Split.removeNode
  simp only [hrem, Option.map_some']

/-- Witness for `addNode_removeNode_roundtrip`: a one-child container, a
fresh leaf appended and removed again. -/
theorem addNode_removeNode_roundtrip_witness :
    (Split.addNode ⟨0, none, [Node.leaf 1 none 1 5], 1⟩ (.leaf 0 none 2 6) true).bind
      (fun s' => s'.removeNode (Node.leaf 0 none 2 6).nid)
      = some ⟨0, none, [Node.leaf 1 none 1 5], 1⟩ :=
  addNode_removeNode_roundtrip ⟨0, none, [Node.leaf 1 none 1 5], 1⟩ (.leaf 0 none 2 6) true
    (by norm_num [sumProps, pequal, ratAbs, epsilon, Node.prop])
    (by norm_num [Node.nid])

/-- C5: adding a node to a split container with zero children assigns it
proportion exactly `1` and performs no redistribution: the result is just
the container with child sequence `[n.setProp 1]`, everything else
untouched. -/
theorem addNode_first_child (i : Nat) (par : Option Nat) (p : ℚ) (n : Node) (last : Bool) :
    Split.addNode ⟨i, par, [], p⟩ n last = some ⟨i, par, [n.setProp 1], p⟩ := by
  have h1 : newProportion ([] : List Node) = 1 := by norm_num [newProportion]
  unfold Split.addNode addNode addNodeChildren shrinkChildren
  rw [h1]
  cases last <;>
    norm_num [checkPortions, sumProps, pequal, ratAbs, epsilon, Node.prop_setProp]

/-- C6: a leaf's `MoveResize` first instructs its client to `FrameTile` and
then to `MoveResize` to exactly the given rectangle, in that order. -/
theorem leaf_moveResize_calls (p : ℚ) (par : Option Nat) (i cl : Nat) (x y w h : Int) :
    (moveResize (.leaf p par i cl) x y w h).2
      = [.frameTile cl, .moveResize cl x y w h] := rfl

/-- C7: `tree.findLeaf` returns the first leaf in depth-first child-sequence
order whose client is `c` — `none` on an empty tree or when no leaf
matches — and the underlying `VisitLeafNodes` traversal short-circuits: a
visit of `xs ++ ys` never touches `ys` once the visit of `xs` has signalled
stop (returned `false`). -/
theorem findLeaf_first_match (t : Tree) (c : Nat) :
    t.findLeaf c = t.leavesList.find? (fun l => l.clientOf == c)
    ∧ ∀ (xs ys : List Node) (acc : Option Node),
        visitL (xs ++ ys) c acc =
          if (visitL xs c acc).2 then visitL ys c (visitL xs c acc).1
          else visitL xs c acc := by
  constructor
  · obtain ⟨child⟩ := t
    cases child with
    | none => rfl
    | some n =>
      show (visitN n c none).1 = _
      rw [visitN_spec]
      cases hf : (leaves n).find? (fun l => l.clientOf == c) <;>
        simp [Tree.leavesList, hf]
  · intro xs ys acc
    induction xs generalizing acc with
    | nil => simp [visitL]
    | cons x xs ih =>
      simp only [List.cons_append, visitL]
      cases hr2 : (visitN x c acc).2
      · simp
      · simp [ih]

/-- C8: `tree.switchClients` is a silent no-op when either client's leaf is
missing (`findLeaf` returns `null`); otherwise it swaps exactly the two
found leaves' client references, leaving the tree's shape, every parent
link and every proportion unchanged: the client-erased tree is identical,
and the leaf-order client list changes only at the two found positions,
which exchange their clients. -/
theorem switchClients_swaps (t : Tree) (c1 c2 : Nat) :
    ((t.findLeaf c1 = none ∨ t.findLeaf c2 = none) → t.switchClients c1 c2 = t)
    ∧ (∀ i1 i2,
        t.leavesList.findIdx? (fun l => l.clientOf == c1) = some i1 →
        t.leavesList.findIdx? (fun l => l.clientOf == c2) = some i2 →
        (t.switchClients c1 c2).eraseClients = t.eraseClients
        ∧ (t.switchClients c1 c2).clientsList
            = ((t.clientsList).set i1 c2).set i2 c1) := by
  obtain ⟨child⟩ := t
  cases child with
  | none =>
    refine ⟨fun _ => rfl, fun i1 i2 h1 h2 => ?_⟩
    simp [Tree.leavesList] at h1
  | some root =>
    constructor
    · intro h
      have hnone : (leaves root).findIdx? (fun l => l.clientOf == c1) = none
          ∨ (leaves root).findIdx? (fun l => l.clientOf == c2) = none := by
        rcases h with h | h
        · left
          rw [← find?_none_iff_findIdx?_none]
          have hfl : (visitN root c1 none).1 = none := h
          rw [visitN_spec] at hfl
          cases hf : (leaves root).find? (fun l => l.clientOf == c1)
          · rfl
          · rw [hf] at hfl
            simp at hfl
        · right
          rw [← find?_none_iff_findIdx?_none]
          have hfl : (visitN root c2 none).1 = none := h
          rw [visitN_spec] at hfl
          cases hf : (leaves root).find? (fun l => l.clientOf == c2)
          · rfl
          · rw [hf] at hfl
            simp at hfl
      rw [switchClients_some]
      rcases hnone with hn | hn
      · rw [hn]
      · rw [hn]
        cases (leaves root).findIdx? (fun l => l.clientOf == c1) <;> rfl
    · intro i1 i2 h1 h2
      simp only [Tree.leavesList] at h1 h2
      rw [switchClients_some, h1, h2]
      constructor
      · show Tree.eraseClients ⟨some _⟩ = Tree.eraseClients ⟨some root⟩
        unfold Tree.eraseClients
        simp only [Option.map_some']
        rw [eraseClients_setLeafClient, eraseClients_setLeafClient]
      · show Tree.clientsList ⟨some _⟩ = _
        unfold Tree.clientsList Tree.leavesList
        simp only
        rw [clients_setLeafClient, clients_setLeafClient]

/-- Witness for `switchClients_swaps`: swapping the two clients of a
two-leaf horizontal split. -/
theorem switchClients_swaps_witness :
    (Tree.switchClients ⟨some (.hsplit 1 none 0
        [Node.leaf (1/2) (some 0) 1 10, Node.leaf (1/2) (some 0) 2 20])⟩ 10 20).eraseClients
      = (⟨some (.hsplit 1 none 0
        [Node.leaf (1/2) (some 0) 1 10, Node.leaf (1/2) (some 0) 2 20])⟩ : Tree).eraseClients
    ∧ (Tree.switchClients ⟨some (.hsplit 1 none 0
        [Node.leaf (1/2) (some 0) 1 10, Node.leaf (1/2) (some 0) 2 20])⟩ 10 20).clientsList
      = (((⟨some (.hsplit 1 none 0
        [Node.leaf (1/2) (some 0) 1 10,
          Node.leaf (1/2) (some 0) 2 20])⟩ : Tree).clientsList).set 0 20).set 1 10 :=
  (switchClients_swaps ⟨some (.hsplit 1 none 0
      [Node.leaf (1/2) (some 0) 1 10, Node.leaf (1/2) (some 0) 2 20])⟩ 10 20).2 0 1
    (by simp [Tree.leavesList, leaves, leavesL, List.findIdx?_cons, Node.clientOf])
    (by simp [Tree.leavesList, leaves, leavesL, List.findIdx?_cons, List.findIdx?_succ,
      Node.clientOf])

/-- C9: for a horizontal split with `N` leaf children each of proportion
`1/N` and a target width `W`, the child widths allotted by `MoveResize`
(the widths of the `MoveResize` calls in its trace, each computed as the
rounding of `(1/N) * W`) sum to `W` up to an error of at most `N`. -/
theorem hsplit_width_coverage (p : ℚ) (par : Option Nat) (i : Nat) (cs : List Node)
    (x y W H : Int) (N : Nat) (hN : 0 < N) (hlen : cs.length = N)
    (hcs : ∀ c ∈ cs, c.isLeaf = true ∧ c.prop = 1 / (N : ℚ)) :
    |(traceWidths (moveResize (.hsplit p par i cs) x y W H).2).sum - W| ≤ (N : Int) := by
  have hNq : ((N : ℚ)) ≠ 0 := Nat.cast_ne_zero.mpr hN.ne'
  have h1 : traceWidths (moveResize (.hsplit p par i cs) x y W H).2
      = cs.map (fun c => portion c.prop W) := by
    simp only [moveResize]
    exact traceWidths_hgo_leaves cs x y W H (fun c hc => (hcs c hc).1)
  have h2 : cs.map (fun c => portion c.prop W)
      = cs.map (fun _ => portion (1 / (N : ℚ)) W) :=
    List.map_congr_left (fun c hc => by rw [(hcs c hc).2])
  have h3 : (cs.map (fun _ => portion (1 / (N : ℚ)) W)).sum
      = (N : Int) * portion (1 / (N : ℚ)) W := by
    rw [List.map_const', List.sum_replicate, hlen]
    exact nsmul_eq_mul N _ |>.trans (by ring)
  rw [h1, h2, h3]
  have herr : |((portion (1 / (N : ℚ)) W : Int) : ℚ) - (W : ℚ) * (1 / (N : ℚ))| ≤ 1/2 :=
    roundHalfAway_close _
  have hbound : |((N : Int) * portion (1 / (N : ℚ)) W : ℚ) - (W : ℚ)| ≤ (N : ℚ) := by
    have hfac : ((N : Int) * portion (1 / (N : ℚ)) W : ℚ) - (W : ℚ)
        = (N : ℚ) * (((portion (1 / (N : ℚ)) W : Int) : ℚ) - (W : ℚ) * (1 / (N : ℚ))) := by
      push_cast
      field_simp
      ring
    rw [hfac, abs_mul, abs_of_nonneg (show (0:ℚ) ≤ (N : ℚ) by positivity)]
    have hNge : (1 : ℚ) ≤ (N : ℚ) := by exact_mod_cast hN
    calc (N : ℚ) * |((portion (1 / (N : ℚ)) W : Int) : ℚ) - (W : ℚ) * (1 / (N : ℚ))|
        ≤ (N : ℚ) * (1/2) := mul_le_mul_of_nonneg_left herr (by positivity)
      _ ≤ (N : ℚ) := by linarith
  exact_mod_cast hbound

/-- Witness for `hsplit_width_coverage`: two equal leaves at width 5; the
allotted widths are 3 and 3, and `|6 - 5| = 1 ≤ 2`. -/
theorem hsplit_width_coverage_witness :
    |(traceWidths (moveResize
        (.hsplit 1 none 9 [Node.leaf (1/2) none 0 10, Node.leaf (1/2) none 1 11])
        0 0 5 7).2).sum - 5| ≤ (2 : Int) := by
  have h := hsplit_width_coverage 1 none 9
      [Node.leaf (1/2) none 0 10, Node.leaf (1/2) none 1 11] 0 0 5 7 2
      (by norm_num) (by norm_num)
      (by
        simp only [List.forall_mem_cons, List.forall_mem_nil]
        norm_num [Node.isLeaf, Node.prop])
  exact_mod_cast h

/-- C10: `tree.place` (with the recursive `MoveResize` it triggers) never
mutates tree state — the tree after the call equals the tree before it
(same child sequences, parent links and proportions); its only effects are
the `ClientCall`s in the returned trace. -/
theorem place_preserves_tree (t : Tree) (g : Rect) : (t.place g).1 = t := by
  obtain ⟨child⟩ := t
  cases child with
  | none => rfl
  | some n =>
    unfold Tree.place
    simp only
    split
    · rw [moveResize_fst]
    · rfl

end Wingo
